import Mathlib

/-!
Verification of the sym2num model-construction and code-synthesis pipeline.

The development shallowly embeds the repository's Python sources:
the nested-sequence scanner and symbolic array variables of src/sym2num/var.py,
the power-expression printing policy of src/sym2num/printing.py, and the
model orchestration (variable initialization, derivative chains, sparse
extraction, packing, and the parametrized wrapper) of src/sym2num/model.py.
The repository files function.py and utils.py are not present in the source
tree; the definitions that depend on them are modelled from the spec and are
marked as such in their doc comments.
-/

/-- Product of a list of dimensions, the total element count of a shape. -/
def listProd (l : List Nat) : Nat := l.foldr (· * ·) 1

/-- Nested array-like specification: either a scalar leaf (a string name or
any other non-iterable object) or a sequence of sub-specifications.  This is
the input domain of elements_and_shape in src/sym2num/var.py. -/
inductive ArrayLike (α : Type) : Type where
  | scalar : α → ArrayLike α
  | node : List (ArrayLike α) → ArrayLike α

mutual

/-- Embedding of elements_and_shape (src/sym2num/var.py, lines 125-146):
returns the flat element list and the shape of a nested array-like, raising
when sub-shapes are inconsistent.  An empty sequence fails at the tuple
unpacking of the zipped recursion results, as in the source. -/
def elementsAndShape {α : Type} : ArrayLike α → Except String (List α × List Nat)
  | .scalar a => .ok ([a], [])
  | .node l =>
      match easList l with
      | .error e => .error e
      | .ok [] => .error "not enough values to unpack"
      | .ok ((e0, s0) :: rest) =>
          if rest.all (fun p => p.2 = s0) then
            .ok (((e0, s0) :: rest).flatMap Prod.fst, ((e0, s0) :: rest).length :: s0)
          else
            .error "could not determine shape unambiguously"

/-- Recursion of elements_and_shape over the members of a sequence, in order,
propagating the first failure (the list comprehension of the source). -/
def easList {α : Type} : List (ArrayLike α) → Except String (List (List α × List Nat))
  | [] => .ok []
  | x :: xs =>
      match elementsAndShape x, easList xs with
      | .error e, _ => .error e
      | .ok _, .error e => .error e
      | .ok p, .ok ps => .ok (p :: ps)

end

/-- Induction principle for nested array-like values. -/
theorem ArrayLike.myInduction {α : Type} {P : ArrayLike α → Prop}
    (hs : ∀ a, P (ArrayLike.scalar a))
    (hn : ∀ l, (∀ x ∈ l, P x) → P (ArrayLike.node l)) : ∀ a, P a
  | .scalar a => hs a
  | .node l => hn l (fun x hx => ArrayLike.myInduction hs hn x)
termination_by a => sizeOf a
decreasing_by
  exact Nat.lt_trans (List.sizeOf_lt_of_mem hx) (by simp [ArrayLike.node.sizeOf_spec])

/-- Successful recursion over a list relates members and results pairwise. -/
theorem easList_forall2 {α : Type} :
    ∀ (l : List (ArrayLike α)) (subs : List (List α × List Nat)),
      easList l = .ok subs →
      List.Forall₂ (fun a p => elementsAndShape a = .ok p) l subs := by
  intro l
  induction l with
  | nil =>
      intro subs h
      simp only [easList] at h
      cases h
      exact List.Forall₂.nil
  | cons x xs ih =>
      intro subs h
      simp only [easList] at h
      split at h
      · cases h
      · cases h
      · cases h
        rename_i p ps hp hps
        exact List.Forall₂.cons hp (ih ps hps)

/-- Right members of a pairwise relation come from some left member. -/
theorem forall2_mem_right {α β : Type} {R : α → β → Prop} :
    ∀ {l : List α} {s : List β}, List.Forall₂ R l s → ∀ b ∈ s, ∃ a ∈ l, R a b := by
  intro l s h
  induction h with
  | nil => intro b hb; cases hb
  | cons hr _ ih =>
      intro b hb
      cases hb with
      | head => exact ⟨_, List.mem_cons_self _ _, hr⟩
      | tail _ hb' =>
          obtain ⟨a, ha, har⟩ := ih b hb'
          exact ⟨a, List.mem_cons_of_mem _ ha, har⟩

/-- Flattening scan results whose shapes all agree multiplies out. -/
theorem flatMap_fst_length {α : Type} :
    ∀ (subs : List (List α × List Nat)) (s0 : List Nat),
      (∀ p ∈ subs, p.1.length = listProd p.2) →
      (∀ p ∈ subs, p.2 = s0) →
      (subs.flatMap Prod.fst).length = subs.length * listProd s0 := by
  intro subs
  induction subs with
  | nil => intro s0 _ _; simp
  | cons p rest ih =>
      intro s0 hlen hsh
      have hp1 : p.1.length = listProd p.2 := hlen p (List.mem_cons_self _ _)
      have hp2 : p.2 = s0 := hsh p (List.mem_cons_self _ _)
      have hrest := ih s0 (fun q hq => hlen q (List.mem_cons_of_mem _ hq))
        (fun q hq => hsh q (List.mem_cons_of_mem _ hq))
      simp only [List.flatMap_cons, List.length_append, List.length_cons, hrest,
        hp1, hp2, Nat.succ_mul]
      omega

/-- A successful scan yields exactly as many flat elements as the shape has
total entries. -/
theorem elementsAndShape_length {α : Type} :
    ∀ (a : ArrayLike α) (els : List α) (sh : List Nat),
      elementsAndShape a = .ok (els, sh) → els.length = listProd sh := by
  intro a
  induction a using ArrayLike.myInduction with
  | hs x =>
      intro els sh h
      simp only [elementsAndShape] at h
      cases h
      simp [listProd]
  | hn l ih =>
      intro els sh h
      simp only [elementsAndShape] at h
      split at h
      · cases h
      · cases h
      · rename_i e0 s0 rest hl
        split at h
        · cases h
          rename_i hall
          have hf2 := easList_forall2 l _ hl
          have hmem : ∀ p ∈ (e0, s0) :: rest, p.1.length = listProd p.2 := by
            intro p hp
            obtain ⟨a, ha, har⟩ := forall2_mem_right hf2 p hp
            exact ih a ha p.1 p.2 (by simpa using har)
          have hshapes : ∀ p ∈ (e0, s0) :: rest, p.2 = s0 := by
            intro p hp
            cases hp with
            | head => rfl
            | tail _ hp' =>
                have := List.all_eq_true.mp hall p hp'
                simpa using this
          have := flatMap_fst_length ((e0, s0) :: rest) s0 hmem hshapes
          simpa [listProd] using this
        · cases h

/-- Reconstruction of a nested array of a given shape from a flat element
list in row-major order: the inverse reading of the spec's round-trip
property for elements_and_shape.  Rank zero takes the single element; a
positive first dimension d splits the flat list into d row-major blocks. -/
def reconstructMany {α : Type} (rec1 : List α → Option (ArrayLike α)) (sz : Nat) :
    Nat → List α → Option (List (ArrayLike α))
  | 0, _ => some []
  | n + 1, els =>
      match rec1 (els.take sz), reconstructMany rec1 sz n (els.drop sz) with
      | some a, some rest => some (a :: rest)
      | _, _ => none

/-- Rebuilding of one nested array of the given shape from a row-major flat
element list; fails when the list length does not match the shape. -/
def reconstruct {α : Type} : List Nat → List α → Option (ArrayLike α)
  | [], els =>
      match els with
      | [a] => some (ArrayLike.scalar a)
      | _ => none
  | d :: rest, els =>
      if els.length = d * listProd rest then
        (reconstructMany (reconstruct rest) (listProd rest) d els).map ArrayLike.node
      else none

/-- Rebuilding a concatenation of equal-shaped blocks rebuilds each block. -/
theorem reconstructMany_flatten {α : Type} (s0 : List Nat) :
    ∀ (ls : List (List α)) (lst : List (ArrayLike α)),
      List.Forall₂ (fun e a => reconstruct s0 e = some a) ls lst →
      (∀ e ∈ ls, e.length = listProd s0) →
      reconstructMany (reconstruct s0) (listProd s0) ls.length ls.flatten = some lst := by
  intro ls lst h
  induction h with
  | nil => intro _; simp [reconstructMany]
  | @cons e a ls' lst' hr htl ih =>
      intro hlen
      have he : e.length = listProd s0 := hlen e (List.mem_cons_self _ _)
      have hih := ih (fun q hq => hlen q (List.mem_cons_of_mem _ hq))
      simp only [List.flatten_cons, List.length_cons, reconstructMany]
      have htake : (e ++ ls'.flatten).take (listProd s0) = e := by
        rw [← he]; exact List.take_left e ls'.flatten
      have hdrop : (e ++ ls'.flatten).drop (listProd s0) = ls'.flatten := by
        rw [← he]; exact List.drop_left e ls'.flatten
      rw [htake, hdrop, hr, hih]

/-- Scan results of a list of sub-arrays rebuild to those sub-arrays. -/
theorem forall2_map_reconstruct {α : Type} (s0 : List Nat) :
    ∀ (l : List (ArrayLike α)) (subs : List (List α × List Nat)),
      List.Forall₂ (fun a p => elementsAndShape a = .ok p) l subs →
      (∀ x ∈ l, ∀ els sh, elementsAndShape x = .ok (els, sh) → reconstruct sh els = some x) →
      (∀ p ∈ subs, p.2 = s0) →
      List.Forall₂ (fun e a => reconstruct s0 e = some a) (subs.map Prod.fst) l := by
  intro l subs h
  induction h with
  | nil => intro _ _; exact List.Forall₂.nil
  | @cons a p l' subs' hr htl ih =>
      intro hih hsh
      have hp2 : p.2 = s0 := hsh p (List.mem_cons_self _ _)
      have hrec : reconstruct s0 p.1 = some a := by
        have := hih a (List.mem_cons_self _ _) p.1 p.2 (by simpa using hr)
        rwa [hp2] at this
      exact List.Forall₂.cons hrec
        (ih (fun x hx => hih x (List.mem_cons_of_mem _ hx))
            (fun q hq => hsh q (List.mem_cons_of_mem _ hq)))

/-- C4: for every valid nested array-like specification, elements_and_shape
round-trips: rebuilding a nested array of the returned shape from the
returned flat elements in row-major order reproduces the original nested
structure. -/
theorem c4_elementsAndShape_roundtrip {α : Type} :
    ∀ (a : ArrayLike α) (els : List α) (sh : List Nat),
      elementsAndShape a = .ok (els, sh) → reconstruct sh els = some a := by
  intro a
  induction a using ArrayLike.myInduction with
  | hs x =>
      intro els sh h
      simp only [elementsAndShape] at h
      cases h
      rfl
  | hn l ih =>
      intro els sh h
      simp only [elementsAndShape] at h
      split at h
      · cases h
      · cases h
      · rename_i e0 s0 rest hl
        split at h
        · cases h
          rename_i hall
          have hf2 := easList_forall2 l _ hl
          have hshapes : ∀ p ∈ (e0, s0) :: rest, p.2 = s0 := by
            intro p hp
            cases hp with
            | head => rfl
            | tail _ hp' =>
                have := List.all_eq_true.mp hall p hp'
                simpa using this
          have hmem : ∀ p ∈ (e0, s0) :: rest, p.1.length = listProd p.2 := by
            intro p hp
            obtain ⟨x, hx, hxr⟩ := forall2_mem_right hf2 p hp
            exact elementsAndShape_length x p.1 p.2 (by simpa using hxr)
          have hlenflat := flatMap_fst_length ((e0, s0) :: rest) s0 hmem hshapes
          have hf2' := forall2_map_reconstruct s0 l ((e0, s0) :: rest) hf2 ih hshapes
          have hlens : ∀ e ∈ ((e0, s0) :: rest).map Prod.fst, e.length = listProd s0 := by
            intro e he
            obtain ⟨p, hp, hpe⟩ := List.mem_map.mp he
            rw [← hpe, hmem p hp, hshapes p hp]
          have hmany := reconstructMany_flatten s0 (((e0, s0) :: rest).map Prod.fst) l
            hf2' hlens
          simp only [reconstruct]
          rw [if_pos (by simpa using hlenflat)]
          rw [List.flatMap_def]
          have hlen_eq : (((e0, s0) :: rest).map Prod.fst).length = ((e0, s0) :: rest).length := by
            simp
          rw [← hlen_eq, hmany]
          rfl
        · cases h

/-- Witness for C4 at a concrete two-by-two nested specification. -/
theorem c4_elementsAndShape_roundtrip_witness :
    elementsAndShape (ArrayLike.node
        [ArrayLike.node [ArrayLike.scalar "a", ArrayLike.scalar "b"],
         ArrayLike.node [ArrayLike.scalar "c", ArrayLike.scalar "d"]])
      = .ok (["a", "b", "c", "d"], [2, 2])
    ∧ reconstruct [2, 2] ["a", "b", "c", "d"]
      = some (ArrayLike.node
        [ArrayLike.node [ArrayLike.scalar "a", ArrayLike.scalar "b"],
         ArrayLike.node [ArrayLike.scalar "c", ArrayLike.scalar "d"]]) :=
  ⟨rfl, c4_elementsAndShape_roundtrip _ _ _ rfl⟩

/-- Start characters of an ASCII Python identifier. -/
def isAsciiIdentStart (c : Char) : Bool := c.isAlpha || c = '_'

/-- Continuation characters of an ASCII Python identifier. -/
def isAsciiIdentCont (c : Char) : Bool := c.isAlphanum || c = '_'

/-- Python reserved words, the keyword.kwlist consulted by isidentifier in
src/sym2num/var.py. -/
def pythonKeywords : List String :=
  ["False", "None", "True", "and", "as", "assert", "async", "await", "break",
   "class", "continue", "def", "del", "elif", "else", "except", "finally",
   "for", "from", "global", "if", "import", "in", "is", "lambda", "nonlocal",
   "not", "or", "pass", "raise", "return", "try", "while", "with", "yield"]

/-- Embedding of isidentifier (src/sym2num/var.py, lines 159-168) over the
ASCII fragment of Python identifier syntax: a valid non-keyword identifier. -/
def isidentifier (s : String) : Bool :=
  match s.data with
  | [] => false
  | c :: rest => isAsciiIdentStart c && rest.all isAsciiIdentCont
      && !(pythonKeywords.contains s)

/-- Modelled from the spec and the source docstring of SymbolArray.__len__:
the symbolic-algebra engine's array length fails for rank-0 arrays and
returns the total element count otherwise (sympy.Array.__len__, an external
collaborator not under src/). -/
def sympyArrayLen (shape : List Nat) : Except String Nat :=
  if shape = [] then .error "len of rank-0 object" else .ok (listProd shape)

/-- Embedding of SymbolArray.__len__ (src/sym2num/var.py, lines 73-78):
returns 1 for rank-0 arrays and defers to the base type otherwise. -/
def symbolArrayLen (shape : List Nat) : Except String Nat :=
  if shape = [] then .ok 1 else sympyArrayLen shape

/-- Embedding of SymbolArray construction (src/sym2num/var.py: __new__ at
lines 35-47 then __init__ at lines 49-67).  A missing array_like argument
defaults to the variable name itself, denoting a rank-0 scalar.  The checks
appear in source order: shape scan, element uniqueness, identifier validity
of the name, the redundant length-based name-uniqueness check through
SymbolArray.__len__, and the positive-rank name collision check. -/
def symbolArrayConstruct (name : String) (arrayLike : Option (ArrayLike String)) :
    Except String (List String × List Nat) :=
  match elementsAndShape (arrayLike.getD (ArrayLike.scalar name)) with
  | .error e => .error e
  | .ok (elements, shape) =>
      if ¬ elements.Nodup then
        .error "elements of SymbolArray must be unique"
      else if ¬ isidentifier name then
        .error "not a valid python identifier"
      else
        match symbolArrayLen shape with
        | .error e => .error e
        | .ok n =>
            if elements.dedup.length < n then
              .error "symbol names in array must be unique"
            else if shape ≠ [] ∧ name ∈ elements then
              .error "positive-rank array name and symbols must differ"
            else
              .ok (elements, shape)

/-- C10: the length of a rank-0 SymbolArray is 1 even though the underlying
symbolic-array base length fails on rank-0 arrays; for positive rank the
override agrees with the base; this keeps the element-count checks of
construction well-defined for scalar variables, so a bare-name scalar
variable is accepted. -/
theorem c10_rank0_len :
    symbolArrayLen [] = .ok 1
    ∧ (sympyArrayLen []).isOk = false
    ∧ (∀ sh : List Nat, sh ≠ [] → symbolArrayLen sh = sympyArrayLen sh)
    ∧ symbolArrayConstruct "x" none = .ok (["x"], []) := by
  refine ⟨rfl, rfl, ?_, rfl⟩
  intro sh hsh
  simp [symbolArrayLen, hsh]

/-- Witness for C10 at a concrete positive-rank shape. -/
theorem c10_rank0_len_witness :
    ([2, 3] : List Nat) ≠ [] ∧ symbolArrayLen [2, 3] = sympyArrayLen [2, 3] :=
  ⟨by decide, c10_rank0_len.2.2.1 [2, 3] (by decide)⟩

/-- Evaluation of SymbolArray construction once the shape scan and the
length of the array are known. -/
theorem symbolArrayConstruct_eval (name : String) (al : ArrayLike String)
    (els : List String) (sh : List Nat) (n : Nat)
    (heas : elementsAndShape al = .ok (els, sh)) (hn : symbolArrayLen sh = .ok n) :
    symbolArrayConstruct name (some al)
      = (if ¬ els.Nodup then Except.error "elements of SymbolArray must be unique"
         else if ¬ isidentifier name then Except.error "not a valid python identifier"
         else if els.dedup.length < n then Except.error "symbol names in array must be unique"
         else if sh ≠ [] ∧ name ∈ els then
           Except.error "positive-rank array name and symbols must differ"
         else Except.ok (els, sh)) := by
  have h1 : symbolArrayConstruct name (some al)
      = (if ¬ els.Nodup then Except.error "elements of SymbolArray must be unique"
         else if ¬ isidentifier name then Except.error "not a valid python identifier"
         else match symbolArrayLen sh with
           | .error e => Except.error e
           | .ok m =>
               if els.dedup.length < m then
                 Except.error "symbol names in array must be unique"
               else if sh ≠ [] ∧ name ∈ els then
                 Except.error "positive-rank array name and symbols must differ"
               else Except.ok (els, sh)) := by
    simp only [symbolArrayConstruct, Option.getD_some]
    rw [heas]
  rw [h1, hn]

/-- C8 (amended): given a valid identifier name, array-variable construction
fails exactly when the nested specification fails the shape scan
(inconsistent sub-shapes or an empty sub-sequence), or the element symbols
within the variable collide, or a positive-rank array's own name equals one
of its element names; and a bare-name rank-0 variable, whose single element
shares the variable's name, is accepted. -/
theorem c8_construct_failure_characterization :
    (∀ (name : String) (al : ArrayLike String), isidentifier name = true →
      ((symbolArrayConstruct name (some al)).isOk = false ↔
        (elementsAndShape al).isOk = false
        ∨ ∃ els sh, elementsAndShape al = .ok (els, sh)
            ∧ (¬ els.Nodup ∨ (sh ≠ [] ∧ name ∈ els))))
    ∧ (∀ name : String, isidentifier name = true →
        symbolArrayConstruct name none = .ok ([name], [])) := by
  constructor
  · intro name al hid
    cases heas : elementsAndShape al with
    | error e =>
        constructor
        · intro _
          exact Or.inl rfl
        · intro _
          have hconstr : symbolArrayConstruct name (some al) = Except.error e := by
            simp only [symbolArrayConstruct, Option.getD_some]
            rw [heas]
          rw [hconstr]
          rfl
    | ok p =>
        obtain ⟨els, sh⟩ := p
        have hlen : els.length = listProd sh := elementsAndShape_length al els sh heas
        have hrhs : (((Except.ok (els, sh) : Except String (List String × List Nat)).isOk = false)
            ∨ ∃ els' sh', (Except.ok (els, sh) : Except String (List String × List Nat)) = .ok (els', sh')
                ∧ (¬ els'.Nodup ∨ (sh' ≠ [] ∧ name ∈ els'))) ↔
            (¬ els.Nodup ∨ (sh ≠ [] ∧ name ∈ els)) := by
          constructor
          · rintro (hfail | ⟨els', sh', heq, hP⟩)
            · cases hfail
            · have hpair := Except.ok.inj heq
              cases hpair
              exact hP
          · intro hP
            exact Or.inr ⟨els, sh, rfl, hP⟩
        rw [hrhs]
        have hn : symbolArrayLen sh = .ok (els.length) := by
          by_cases hsh : sh = []
          · subst hsh
            simp only [listProd, List.foldr_nil] at hlen
            rw [hlen]
            rfl
          · simp only [symbolArrayLen, if_neg hsh, sympyArrayLen, if_neg hsh, hlen]
        have hstep := symbolArrayConstruct_eval name al els sh els.length heas hn
        by_cases hnd : els.Nodup
        · have hded : els.dedup = els := List.dedup_eq_self.mpr hnd
          rw [if_neg (not_not_intro hnd), if_neg (not_not_intro hid),
            if_neg (by rw [hded]; omega)] at hstep
          by_cases hcol : sh ≠ [] ∧ name ∈ els
          · rw [if_pos hcol] at hstep
            rw [hstep]
            constructor
            · intro _
              exact Or.inr hcol
            · intro _
              rfl
          · rw [if_neg hcol] at hstep
            rw [hstep]
            constructor
            · intro hfalse
              cases hfalse
            · intro hP
              rcases hP with hP | hP
              · exact absurd hnd hP
              · exact absurd hP hcol
        · rw [if_pos hnd] at hstep
          rw [hstep]
          constructor
          · intro _
            exact Or.inl hnd
          · intro _
            rfl
  · intro name hid
    have h1 : symbolArrayConstruct name none
        = (if ¬ ([name] : List String).Nodup then
             Except.error "elements of SymbolArray must be unique"
           else if ¬ isidentifier name then Except.error "not a valid python identifier"
           else if ([name] : List String).dedup.length < 1 then
             Except.error "symbol names in array must be unique"
           else if ([] : List Nat) ≠ [] ∧ name ∈ ([name] : List String) then
             Except.error "positive-rank array name and symbols must differ"
           else Except.ok ([name], [])) := by
      have heas : elementsAndShape (ArrayLike.scalar name) = .ok ([name], []) := rfl
      have hn : symbolArrayLen ([] : List Nat) = .ok 1 := rfl
      have := symbolArrayConstruct_eval name (ArrayLike.scalar name) [name] [] 1 heas hn
      exact this
    rw [h1]
    rw [if_neg (not_not_intro (by simp)), if_neg (not_not_intro hid),
      if_neg (by simp), if_neg (by simp)]
/-- Witness for C8's amended theorem at a concrete bare-name scalar. -/
theorem c8_construct_witness :
    isidentifier "x" = true ∧ symbolArrayConstruct "x" none = .ok (["x"], []) :=
  ⟨rfl, c8_construct_failure_characterization.2 "x" rfl⟩

/-- Counterexample for C8 as stated: with an invalid (non-identifier) name,
construction fails although the nested specification is shape-consistent,
the element symbols are distinct, and the name collides with no element
name; so construction does not fail exactly on the three listed inputs. -/
theorem c8_counterexample :
    (symbolArrayConstruct "0a"
      (some (ArrayLike.node [ArrayLike.scalar "a", ArrayLike.scalar "b"]))).isOk = false
    ∧ elementsAndShape (ArrayLike.node [ArrayLike.scalar "a", ArrayLike.scalar "b"])
        = .ok (["a", "b"], [2])
    ∧ (["a", "b"] : List String).Nodup
    ∧ "0a" ∉ (["a", "b"] : List String) := by
  refine ⟨rfl, rfl, by decide, by decide⟩

/-- Expression fragment handled by the power-printing policy: a scalar
symbol or a power node with a numeric exponent (the printer compares the
exponent by numeric value, so a rational models the exponent). -/
inductive PExpr : Type where
  | sym : String → PExpr
  | pow : PExpr → Rat → PExpr

/-- Embedding of NumpyPrinter rendering for symbols and power expressions
(src/sym2num/printing.py, lines 56-65): np is the printer's numpy module
alias; dfltPow stands for the base StrPrinter power rendering inherited
from the symbolic-algebra engine, an external collaborator. -/
def printExpr (np : String) (dfltPow : PExpr → Rat → String) : PExpr → String
  | .sym n => n
  | .pow b e =>
      if e = 1/2 then np ++ ".sqrt(" ++ printExpr np dfltPow b ++ ")"
      else if e = -(1/2) then "(1/" ++ np ++ ".sqrt(" ++ printExpr np dfltPow b ++ "))"
      else if e = 1 then "(" ++ printExpr np dfltPow b ++ ")"
      else dfltPow b e

/-- C3: for every scalar symbol x, the printer renders x to the one-half
power as a square-root library call, x to the minus one-half power as the
reciprocal of a square-root call, and x to the first power as the
parenthesized base with no power operator; every other exponent falls
through to the default power rendering. -/
theorem c3_print_pow_policy (np : String) (dfltPow : PExpr → Rat → String) (x : String) :
    printExpr np dfltPow (.pow (.sym x) (1/2)) = np ++ ".sqrt(" ++ x ++ ")"
    ∧ printExpr np dfltPow (.pow (.sym x) (-(1/2))) = "(1/" ++ np ++ ".sqrt(" ++ x ++ "))"
    ∧ printExpr np dfltPow (.pow (.sym x) 1) = "(" ++ x ++ ")"
    ∧ (∀ e : Rat, e ≠ 1/2 → e ≠ -(1/2) → e ≠ 1 →
        printExpr np dfltPow (.pow (.sym x) e) = dfltPow (.sym x) e) := by
  refine ⟨?_, ?_, ?_, ?_⟩
  · simp [printExpr]
  · norm_num [printExpr]
  · norm_num [printExpr]
  · intro e h1 h2 h3
    simp only [printExpr]
    rw [if_neg h1, if_neg h2, if_neg h3]

/-- Witness for C3 at the concrete exponent two. -/
theorem c3_print_pow_policy_witness :
    ((2 : Rat) ≠ 1/2 ∧ (2 : Rat) ≠ -(1/2) ∧ (2 : Rat) ≠ 1)
    ∧ printExpr "_numpy" (fun _ _ => "base-power") (.pow (.sym "x") 2) = "base-power" :=
  ⟨⟨by norm_num, by norm_num, by norm_num⟩,
   (c3_print_pow_policy "_numpy" (fun _ _ => "base-power") "x").2.2.2 2
     (by norm_num) (by norm_num) (by norm_num)⟩

/-- One pass of the filling loop of ParametrizedModel.pack
(src/sym2num/model.py, lines 259-263): each enumerated element name whose
value is present in the mapping is stored at its row-major position. -/
def packLoop {V : Type} (d : String → Option V) :
    List (Nat × String) → List V → List V
  | [], ret => ret
  | (i, n) :: rest, ret =>
      packLoop d rest (match d n with
        | some v => ret.set i v
        | none => ret)

/-- Embedding of ParametrizedModel.pack (src/sym2num/model.py, lines
253-264) over the row-major flat form of the variable's spec array with a
scalar fill value: the result starts as a fill-valued array of the spec's
shape and every element whose name is in the mapping is overwritten. -/
def parametrizedPack {V : Type} (spec : List String) (d : String → Option V) (fill : V) : List V :=
  packLoop d spec.enum (List.replicate spec.length fill)

/-- Filling preserves the array length. -/
theorem packLoop_length {V : Type} (d : String → Option V) :
    ∀ (l : List (Nat × String)) (ret : List V), (packLoop d l ret).length = ret.length := by
  intro l
  induction l with
  | nil => intro ret; rfl
  | cons p rest ih =>
      intro ret
      obtain ⟨i, n⟩ := p
      simp only [packLoop]
      cases d n with
      | none => exact ih ret
      | some v => rw [ih (ret.set i v)]; exact List.length_set ret i v

/-- Positions never named by the loop are left unchanged. -/
theorem packLoop_getElem_of_ne {V : Type} (d : String → Option V) :
    ∀ (l : List (Nat × String)) (ret : List V) (i : Nat),
      (∀ p ∈ l, p.1 ≠ i) → (packLoop d l ret)[i]? = ret[i]? := by
  intro l
  induction l with
  | nil => intro ret i _; rfl
  | cons p rest ih =>
      intro ret i hne
      obtain ⟨j, n⟩ := p
      simp only [packLoop]
      have hj : j ≠ i := hne (j, n) (List.mem_cons_self _ _)
      have hrest : ∀ q ∈ rest, q.1 ≠ i := fun q hq => hne q (List.mem_cons_of_mem _ hq)
      cases d n with
      | none => exact ih ret i hrest
      | some v =>
          rw [ih (ret.set j v) i hrest]
          exact List.getElem?_set_ne hj

/-- Row-major characterization of the filling loop over an enumeration
starting at offset k. -/
theorem packLoop_enumFrom_getElem {V : Type} (d : String → Option V) :
    ∀ (spec : List String) (k : Nat) (ret : List V), ret.length = k + spec.length →
      ∀ i : Nat, (packLoop d (spec.enumFrom k) ret)[k + i]?
        = match spec[i]? with
          | some n => (match d n with
              | some v => some v
              | none => ret[k + i]?)
          | none => ret[k + i]? := by
  intro spec
  induction spec with
  | nil =>
      intro k ret _ i
      simp [packLoop, List.enumFrom]
  | cons n rest ih =>
      intro k ret hlen i
      rw [List.enumFrom_cons]
      simp only [packLoop]
      have hlen0 : ret.length = k + (rest.length + 1) := by
        rw [hlen]; simp
      cases hd : d n with
      | none =>
          cases i with
          | zero =>
              have hbound : ∀ q ∈ rest.enumFrom (k + 1), q.1 ≠ k + 0 := by
                intro q hq
                have := (List.mem_enumFrom hq).1
                omega
              rw [packLoop_getElem_of_ne d _ ret _ hbound]
              simp [hd]
          | succ j =>
              have harith : k + (j + 1) = (k + 1) + j := by omega
              rw [harith]
              rw [ih (k + 1) ret (by omega) j]
              simp only [List.getElem?_cons_succ]
      | some v =>
          cases i with
          | zero =>
              have hbound : ∀ q ∈ rest.enumFrom (k + 1), q.1 ≠ k + 0 := by
                intro q hq
                have := (List.mem_enumFrom hq).1
                omega
              rw [packLoop_getElem_of_ne d _ (ret.set k v) _ hbound]
              have hklt : k < ret.length := by omega
              simp only [Nat.add_zero]
              rw [List.getElem?_set_eq_of_lt v hklt]
              simp [hd]
          | succ j =>
              have harith : k + (j + 1) = (k + 1) + j := by omega
              rw [harith]
              have hlen' : (ret.set k v).length = (k + 1) + rest.length := by
                rw [List.length_set]; omega
              rw [ih (k + 1) (ret.set k v) hlen' j]
              have hne : k ≠ (k + 1) + j := by omega
              rw [List.getElem?_set_ne hne]
              simp only [List.getElem?_cons_succ]

/-- C5: pack returns an array of exactly the named variable's declared
shape in which every entry whose element name appears in the mapping equals
the mapped value and every other entry equals the caller-supplied fill
value (the Python default argument is fill equal to 0). -/
theorem c5_pack_characterization {V : Type} :
    ∀ (specArr : ArrayLike String) (els : List String) (sh : List Nat)
      (d : String → Option V) (fill : V),
      elementsAndShape specArr = .ok (els, sh) →
      (parametrizedPack els d fill).length = listProd sh
      ∧ ∀ i : Nat, (parametrizedPack els d fill)[i]?
          = (els[i]?).map (fun n => (d n).getD fill) := by
  intro specArr els sh d fill heas
  have hlen := elementsAndShape_length specArr els sh heas
  constructor
  · show (packLoop d els.enum (List.replicate els.length fill)).length = listProd sh
    rw [packLoop_length]
    simp [hlen]
  · intro i
    have hrepl : (List.replicate els.length fill).length = 0 + els.length := by simp
    have hkey := packLoop_enumFrom_getElem d els 0 (List.replicate els.length fill) hrepl i
    simp only [Nat.zero_add] at hkey
    have henum : els.enum = els.enumFrom 0 := rfl
    show (packLoop d els.enum (List.replicate els.length fill))[i]? = _
    rw [henum, hkey]
    by_cases hi : i < els.length
    · rw [List.getElem?_eq_getElem hi]
      have hrep : (List.replicate els.length fill)[i]? = some fill := by
        simp [List.getElem?_replicate, hi]
      cases hd : d (els[i]) with
      | none => simp [hd, hrep]
      | some v => simp [hd]
    · have hnone : els[i]? = none := by
        rw [List.getElem?_eq_none]; omega
      rw [hnone]
      have hrepn : (List.replicate els.length fill)[i]? = none := by
        rw [List.getElem?_eq_none]; simp; omega
      simp [hrepn]

/-- Witness for C5 at a concrete two-element variable and mapping. -/
theorem c5_pack_witness :
    elementsAndShape (ArrayLike.node [ArrayLike.scalar "a", ArrayLike.scalar "b"])
        = .ok (["a", "b"], [2])
    ∧ ((parametrizedPack ["a", "b"] (fun n => if n = "a" then some (5 : Int) else none) 0).length
          = listProd [2]
       ∧ ∀ i : Nat,
          (parametrizedPack ["a", "b"] (fun n => if n = "a" then some (5 : Int) else none) 0)[i]?
            = (((["a", "b"] : List String))[i]?).map
                (fun n => ((if n = "a" then some (5 : Int) else none)).getD 0)) :=
  ⟨rfl, c5_pack_characterization
    (ArrayLike.node [ArrayLike.scalar "a", ArrayLike.scalar "b"]) ["a", "b"] [2]
    (fun n => if n = "a" then some (5 : Int) else none) 0 rfl⟩

/-- Embedding of SymbolicModel._init_variables (src/sym2num/model.py, lines
61-72): every declared variable specification is realized, in order, into
an array of symbols named by the specification's entries.  The numpy shape
inference and enumeration of the source agree with elements_and_shape on
well-formed nested string specifications, which are the modelled domain.
The loop performs no duplicate check of any kind. -/
def initVariables (varList : List (String × ArrayLike String)) :
    Except String (List (String × (List String × List Nat))) :=
  match varList with
  | [] => .ok []
  | (vname, specs) :: rest =>
      match elementsAndShape specs with
      | .error e => .error e
      | .ok scanned =>
          match initVariables rest with
          | .error e => .error e
          | .ok acc => .ok ((vname, scanned) :: acc)

/-- C2 (amended): variable initialization never fails because of duplicate
element-symbol names across variables; it fails exactly when some declared
specification itself is malformed (inconsistent sub-shapes or an empty
sub-sequence).  Duplicated names simply produce the same symbol in both
variables. -/
theorem c2_init_variables_no_duplicate_check :
    ∀ (varList : List (String × ArrayLike String)),
      (initVariables varList).isOk = true
        ↔ ∀ p ∈ varList, (elementsAndShape p.2).isOk = true := by
  intro varList
  induction varList with
  | nil =>
      constructor
      · intro _ q hq
        cases hq
      · intro _
        rfl
  | cons p rest ih =>
      obtain ⟨vname, specs⟩ := p
      simp only [initVariables]
      cases heas : elementsAndShape specs with
      | error e =>
          constructor
          · intro hfalse
            cases hfalse
          · intro hall
            have := hall (vname, specs) (List.mem_cons_self _ _)
            rw [heas] at this
            cases this
      | ok scanned =>
          cases hrest : initVariables rest with
          | error e =>
              constructor
              · intro hfalse
                cases hfalse
              · intro hall
                have : (initVariables rest).isOk = true := by
                  rw [ih]
                  intro q hq
                  exact hall q (List.mem_cons_of_mem _ hq)
                rw [hrest] at this
                cases this
          | ok acc =>
              constructor
              · intro _
                intro q hq
                cases hq with
                | head => rw [heas]; rfl
                | tail _ hq' =>
                    have : (initVariables rest).isOk = true := by rw [hrest]; rfl
                    rw [ih] at this
                    exact this q hq'
              · intro _
                rfl

/-- Counterexample for C2 as stated: two declared variables x and y share
the element-symbol name a, yet the variable-initialization phase completes
successfully instead of raising a duplicate-name error; construction never
fails on cross-variable duplicates. -/
theorem c2_counterexample :
    initVariables
        [("x", ArrayLike.node [ArrayLike.scalar "a", ArrayLike.scalar "b"]),
         ("y", ArrayLike.node [ArrayLike.scalar "a"])]
      = .ok [("x", (["a", "b"], [2])), ("y", (["a"], [1]))]
    ∧ "a" ∈ (["a", "b"] : List String) ∧ "a" ∈ (["a"] : List String) := by
  refine ⟨rfl, by decide, by decide⟩

/-- Scalar symbolic expressions appearing in model function outputs. -/
inductive Expr : Type where
  | const : Rat → Expr
  | sym : String → Expr
  | add : Expr → Expr → Expr
  | mul : Expr → Expr → Expr
deriving DecidableEq

/-- Modelled from the spec: the symbolic-algebra engine's scalar derivative
is consumed as a black box "given expression E and symbol S, produce
dE/dS"; this realizes it on the embedded expression language with the
standard rules. -/
def derivExpr : Expr → String → Expr
  | .const _, _ => .const 0
  | .sym n, s => if n = s then .const 1 else .const 0
  | .add a b, s => .add (derivExpr a s) (derivExpr b s)
  | .mul a b, s => .add (.mul (derivExpr a s) b) (.mul a (derivExpr b s))

/-- A model variable realized as an array of symbols: its shape and the
row-major flat list of its element-symbol names (the arrays built by
_init_variables). -/
structure Var : Type where
  shape : List Nat
  elems : List String
deriving DecidableEq

/-- Modelled from the spec (section 4.3, the contract of the repository
file function.py, which is not under src/): a Symbolic Function pairs an
array-valued output (shape and row-major flat entries) with its ordered
argument list and its name. -/
structure SymFunc : Type where
  outShape : List Nat
  outFlat : List Expr
  args : List String
  name : String
deriving DecidableEq

/-- Modelled from the spec (section 4.3): differentiate computes, for every
element of the variable, the partial derivative of every element of the
output, producing output shape outShape ++ wrt.shape, with the same
argument list and the given new name. -/
def diffFun (f : SymFunc) (wrt : Var) (newName : String) : SymFunc :=
  { outShape := f.outShape ++ wrt.shape,
    outFlat := f.outFlat.flatMap (fun e => wrt.elems.map (fun s => derivExpr e s)),
    args := f.args,
    name := newName }

/-- Model state for derivative registration: the variable table and the
function registry of a SymbolicModel. -/
structure DModel : Type where
  vars : String → Option Var
  functions : String → Option SymFunc

/-- Registration of a function under a name in the registry. -/
def addRegistered (m : DModel) (name : String) (f : SymFunc) : DModel :=
  { m with functions := fun q => if q = name then some f else m.functions q }

/-- The differentiation loop of add_derivative: one step per listed
variable name, in list order, each step looking the variable up in the
model's table (a missing name is a Python KeyError, modelled as none). -/
def diffLoop (m : DModel) (name : String) : SymFunc → List String → Option SymFunc
  | f, [] => some f
  | f, w :: ws =>
      match m.vars w with
      | none => none
      | some v => diffLoop m name (diffFun f v name) ws

/-- Embedding of SymbolicModel.add_derivative (src/sym2num/model.py, lines
183-191): a lone string wrt specification becomes a one-element tuple; the
base function is looked up; the loop differentiates once per named
variable, iterating over reversed(wrt_names); the final function is
registered under the new name. -/
def addDerivative (m : DModel) (name fname : String) (wrtNames : String ⊕ List String) :
    Option DModel :=
  let ws := match wrtNames with
    | .inl s => [s]
    | .inr l => l
  match m.functions fname with
  | none => none
  | some f =>
      match diffLoop m name f ws.reverse with
      | none => none
      | some g => some (addRegistered m name g)

/-- The derivative chain in the order written in the claim (left variable
first), following the claim's words only; compared against the source's
addDerivative, which iterates the reversed list. -/
def c1ClaimChain (m : DModel) (name : String) (f : SymFunc) (ws : List String) :
    Option SymFunc :=
  diffLoop m name f ws

/-- Concrete base function used in the C1 counterexample and witness. -/
def c1BaseF : SymFunc := ⟨[], [Expr.sym "x0"], ["x", "t"], "f"⟩

/-- Concrete model with variables x (shape two) and t (shape three) and one
registered function f. -/
def c1Model : DModel :=
  { vars := fun q =>
      if q = "x" then some ⟨[2], ["x0", "x1"]⟩
      else if q = "t" then some ⟨[3], ["t0", "t1", "t2"]⟩
      else none,
    functions := fun q => if q = "f" then some c1BaseF else none }

/-- Counterexample for C1 as stated: declaring the derivative of f by the
variables x then t registers a function whose output shape is three by two
(t applied first, then x), not the two-by-three shape that one
differentiation step per variable in the given left-to-right order would
produce; the loop iterates the reversed variable list. -/
theorem c1_counterexample :
    ((addDerivative c1Model "d" "f" (Sum.inr ["x", "t"])).bind
        (fun m' => m'.functions "d")).map SymFunc.outShape = some [3, 2]
    ∧ (c1ClaimChain c1Model "d" c1BaseF ["x", "t"]).map SymFunc.outShape = some [2, 3]
    ∧ ([3, 2] : List Nat) ≠ [2, 3] := by
  refine ⟨rfl, rfl, by decide⟩

/-- The loop computes the left fold of single differentiation steps over
the list it is given. -/
theorem diffLoop_eq_foldl (m : DModel) (name : String) :
    ∀ (ws : List String) (vs : List Var) (f : SymFunc),
      List.Forall₂ (fun w v => m.vars w = some v) ws vs →
      diffLoop m name f ws = some (vs.foldl (fun g v => diffFun g v name) f) := by
  intro ws vs f h
  induction h generalizing f with
  | nil => rfl
  | @cons w v ws' vs' hwv htl ih =>
      simp only [diffLoop, hwv, List.foldl_cons]
      exact ih (diffFun f v name)

/-- Shape accumulation of the differentiation fold. -/
theorem foldl_diffFun_outShape (name : String) :
    ∀ (vs : List Var) (f : SymFunc),
      (vs.foldl (fun g v => diffFun g v name) f).outShape
        = f.outShape ++ (vs.map Var.shape).flatten := by
  intro vs
  induction vs with
  | nil =>
      intro f
      simp
  | cons v rest ih =>
      intro f
      rw [List.foldl_cons, ih (diffFun f v name)]
      simp [diffFun, List.append_assoc]

/-- The differentiation fold preserves the argument list. -/
theorem foldl_diffFun_args (name : String) :
    ∀ (vs : List Var) (f : SymFunc),
      (vs.foldl (fun g v => diffFun g v name) f).args = f.args := by
  intro vs
  induction vs with
  | nil => intro f; rfl
  | cons v rest ih =>
      intro f
      rw [List.foldl_cons, ih (diffFun f v name)]
      rfl

/-- The differentiation fold keeps the new name once stamped. -/
theorem foldl_diffFun_name_of (name : String) :
    ∀ (vs : List Var) (f : SymFunc), f.name = name →
      (vs.foldl (fun g v => diffFun g v name) f).name = name := by
  intro vs
  induction vs with
  | nil => intro f hf; exact hf
  | cons v rest ih =>
      intro f _
      rw [List.foldl_cons]
      exact ih (diffFun f v name) rfl

/-- A nonempty differentiation fold stamps the new name. -/
theorem foldl_diffFun_name_ne (name : String) :
    ∀ (vs : List Var) (f : SymFunc), vs ≠ [] →
      (vs.foldl (fun g v => diffFun g v name) f).name = name := by
  intro vs f hne
  cases vs with
  | nil => exact absurd rfl hne
  | cons v rest =>
      rw [List.foldl_cons]
      exact foldl_diffFun_name_of name rest (diffFun f v name) rfl

/-- C1 (amended): for a derivative declaration with a list of variable
names, add_derivative applies one differentiation step per named variable
processed in reverse order (rightmost variable first), and registers the
final resulting function, carrying the new name, the base function's
argument list and the reversed-order shape accumulation, under new_name;
other registry entries are untouched. -/
theorem c1_add_derivative_reversed :
    ∀ (m : DModel) (name fname : String) (ws : List String) (f : SymFunc) (vs : List Var),
      m.functions fname = some f →
      List.Forall₂ (fun w v => m.vars w = some v) ws vs →
      ws ≠ [] →
      ∃ m', addDerivative m name fname (Sum.inr ws) = some m'
        ∧ m'.functions name
            = some (vs.reverse.foldl (fun g v => diffFun g v name) f)
        ∧ (m'.functions name).map SymFunc.outShape
            = some (f.outShape ++ (vs.reverse.map Var.shape).flatten)
        ∧ (m'.functions name).map SymFunc.args = some f.args
        ∧ (m'.functions name).map SymFunc.name = some name
        ∧ ∀ q, q ≠ name → m'.functions q = m.functions q := by
  intro m name fname ws f vs hf hwv hne
  have hrev : List.Forall₂ (fun w v => m.vars w = some v) ws.reverse vs.reverse :=
    List.forall₂_reverse_iff.mpr hwv
  have hloop := diffLoop_eq_foldl m name ws.reverse vs.reverse f hrev
  have hfn : (addRegistered m name (vs.reverse.foldl (fun g v => diffFun g v name) f)).functions name
      = some (vs.reverse.foldl (fun g v => diffFun g v name) f) := by
    simp [addRegistered]
  have hvs : vs ≠ [] := by
    intro hnil
    subst hnil
    cases hwv
    exact hne rfl
  have hvsr : vs.reverse ≠ [] := by
    intro hnil
    exact hvs (by simpa using List.reverse_eq_nil_iff.mp hnil)
  refine ⟨addRegistered m name (vs.reverse.foldl (fun g v => diffFun g v name) f),
    ?_, hfn, ?_, ?_, ?_, ?_⟩
  · simp only [addDerivative, hf, hloop]
  · rw [hfn]
    exact congrArg some (foldl_diffFun_outShape name vs.reverse f)
  · rw [hfn]
    exact congrArg some (foldl_diffFun_args name vs.reverse f)
  · rw [hfn]
    exact congrArg some (foldl_diffFun_name_ne name vs.reverse f hvsr)
  · intro q hq
    simp [addRegistered, hq]

/-- Witness for C1's amended theorem at the concrete model. -/
theorem c1_add_derivative_reversed_witness :
    c1Model.functions "f" = some c1BaseF
    ∧ List.Forall₂ (fun w v => c1Model.vars w = some v) ["x", "t"]
        [⟨[2], ["x0", "x1"]⟩, ⟨[3], ["t0", "t1", "t2"]⟩]
    ∧ (["x", "t"] : List String) ≠ []
    ∧ ∃ m', addDerivative c1Model "d" "f" (Sum.inr ["x", "t"]) = some m'
        ∧ m'.functions "d"
            = some (([⟨[2], ["x0", "x1"]⟩, ⟨[3], ["t0", "t1", "t2"]⟩] : List Var).reverse.foldl
                (fun g v => diffFun g v "d") c1BaseF)
        ∧ (m'.functions "d").map SymFunc.outShape
            = some (c1BaseF.outShape
                ++ (([⟨[2], ["x0", "x1"]⟩, ⟨[3], ["t0", "t1", "t2"]⟩] : List Var).reverse.map Var.shape).flatten)
        ∧ (m'.functions "d").map SymFunc.args = some c1BaseF.args
        ∧ (m'.functions "d").map SymFunc.name = some "d"
        ∧ ∀ q, q ≠ "d" → m'.functions q = c1Model.functions q :=
  ⟨rfl,
   List.Forall₂.cons rfl (List.Forall₂.cons rfl List.Forall₂.nil),
   by decide,
   c1_add_derivative_reversed c1Model "d" "f" ["x", "t"] c1BaseF
     [⟨[2], ["x0", "x1"]⟩, ⟨[3], ["t0", "t1", "t2"]⟩] rfl
     (List.Forall₂.cons rfl (List.Forall₂.cons rfl List.Forall₂.nil)) (by decide)⟩

/-- Row-major multi-indices of a shape, in numpy ndindex order. -/
def ndindex : List Nat → List (List Nat)
  | [] => [[]]
  | d :: rest => (List.range d).flatMap (fun i => (ndindex rest).map (fun idx => i :: idx))

/-- Row-major flat position of a multi-index within a shape. -/
def flatPos : List Nat → List Nat → Nat
  | _ :: rest, i :: is => i * listProd rest + flatPos rest is
  | _, _ => 0

/-- Entry of a flat row-major array at a multi-index. -/
def entryAt (sh : List Nat) (flat : List Expr) (idx : List Nat) : Expr :=
  flat.getD (flatPos sh idx) (Expr.const 0)

/-- Structural zero test: np.nonzero keeps every entry that is not the
zero value (the spec's structurally-nonzero entries). -/
def isZeroExpr : Expr → Bool
  | .const q => q = 0
  | _ => false

/-- Multi-indices of the structurally-nonzero entries, row-major: the
multi-index view of np.nonzero on the function output. -/
def nonzeroIdx (sh : List Nat) (flat : List Expr) : List (List Nat) :=
  (ndindex sh).filter (fun idx => ¬ isZeroExpr (entryAt sh flat idx))

/-- Per-axis index arrays: the tuple of arrays returned by np.nonzero. -/
def axesOf (r : Nat) (ls : List (List Nat)) : List (List Nat) :=
  (List.range r).map (fun j => ls.map (fun idx => idx.getD j 0))

/-- Boolean-mask selection of numpy: keep the entries whose mask entry is
true. -/
def maskFilter {β : Type} (mask : List Bool) (l : List β) : List β :=
  ((l.zip mask).filter (fun p => p.2)).map (fun p => p.1)

/-- The default selector of _init_sparse for a bare function name:
np.ones_like(inds[0], dtype=bool), an all-true mask over the first axis
array. -/
def defaultSelector (axes : List (List Nat)) : List Bool :=
  List.replicate (axes.headD []).length true

/-- Gathering with a tuple of per-axis index arrays (numpy advanced
indexing): the i-th selected multi-index takes the i-th entry of every
axis array, and the result is rank-1. -/
def gatherIdx (axes : List (List Nat)) : List (List Nat) :=
  (List.range (axes.headD []).length).map (fun i => axes.map (fun ax => ax.getD i 0))

/-- Model state for sparse initialization: the function registry and the
sparse index table of a SymbolicModel. -/
structure SModel : Type where
  functions : String → Option SymFunc
  sparseInds : String → Option (List (List Nat))

/-- Embedding of one iteration of SymbolicModel._init_sparse
(src/sym2num/model.py, lines 93-108): a bare name means the default
all-true selector; the base function is looked up (KeyError is none); the
nonzero per-axis index arrays are computed, masked by the selector, used to
gather the rank-1 value array, and the new function is registered under the
name with the _val suffix while the index table is keyed by the base
name.  The function container is modelled from the spec since function.py
is not under src/. -/
def initSparseStep (m : SModel)
    (spec : String ⊕ (String × (List (List Nat) → List Bool))) : Option SModel :=
  let fname := match spec with
    | .inl s => s
    | .inr p => p.1
  let selector := match spec with
    | .inl _ => defaultSelector
    | .inr p => p.2
  match m.functions fname with
  | none => none
  | some f =>
      let inds := axesOf f.outShape.length (nonzeroIdx f.outShape f.outFlat)
      let mask := selector inds
      let kept := inds.map (fun ind => maskFilter mask ind)
      let fval := (gatherIdx kept).map (fun idx => entryAt f.outShape f.outFlat idx)
      let fobj : SymFunc := ⟨[fval.length], fval, f.args, fname ++ "_val"⟩
      some { functions := fun q => if q = fobj.name then some fobj else m.functions q,
             sparseInds := fun q => if q = fname then some kept else m.sparseInds q }

/-- Every multi-index produced by ndindex has the rank of the shape. -/
theorem ndindex_length (sh : List Nat) :
    ∀ idx ∈ ndindex sh, idx.length = sh.length := by
  induction sh with
  | nil =>
      intro idx hidx
      simp only [ndindex, List.mem_singleton] at hidx
      subst hidx
      rfl
  | cons d rest ih =>
      intro idx hidx
      simp only [ndindex, List.mem_flatMap, List.mem_map] at hidx
      obtain ⟨i, _, idx', hidx', rfl⟩ := hidx
      simp [ih idx' hidx']

/-- Mask selection commutes with mapping. -/
theorem maskFilter_map {β γ : Type} (f : β → γ) :
    ∀ (l : List β) (mask : List Bool),
      maskFilter mask (l.map f) = (maskFilter mask l).map f := by
  intro l
  induction l with
  | nil => intro mask; rfl
  | cons x xs ih =>
      intro mask
      cases mask with
      | nil => rfl
      | cons b bs =>
          simp only [maskFilter, List.map_cons, List.zip_cons_cons, List.filter_cons]
          cases b with
          | false =>
              simpa [maskFilter] using ih bs
          | true =>
              simp only [List.map_cons]
              have := ih bs
              simp only [maskFilter] at this
              simp [this]

/-- Mask selection yields members of the original list. -/
theorem maskFilter_subset {β : Type} (mask : List Bool) (l : List β) :
    ∀ x ∈ maskFilter mask l, x ∈ l := by
  intro x hx
  simp only [maskFilter, List.mem_map, List.mem_filter] at hx
  obtain ⟨⟨a, b⟩, ⟨hzip, _⟩, rfl⟩ := hx
  exact (List.of_mem_zip hzip).1

/-- An all-true mask of the list's length keeps the whole list. -/
theorem maskFilter_replicate_true {β : Type} :
    ∀ (l : List β), maskFilter (List.replicate l.length true) l = l := by
  intro l
  induction l with
  | nil => rfl
  | cons x xs ih =>
      simp only [List.length_cons, List.replicate_succ, maskFilter,
        List.zip_cons_cons, List.filter_cons, List.map_cons]
      have := ih
      simp only [maskFilter] at this
      simp [this]

/-- Reading a list back off the range of its length by positions. -/
theorem range_map_getD {β : Type} :
    ∀ (l : List β) (d : β), (List.range l.length).map (fun j => l.getD j d) = l := by
  intro l
  induction l with
  | nil => intro d; rfl
  | cons x xs ih =>
      intro d
      rw [List.length_cons, List.range_succ_eq_map]
      simp only [List.map_cons, List.getD_cons_zero, List.map_map]
      congr 1
      have : ((fun j => (x :: xs).getD j d) ∘ Nat.succ) = fun j => xs.getD j d := by
        funext j
        simp [Function.comp, List.getD_cons_succ]
      rw [this, ih d]

/-- Indexing a mapped list inside its range. -/
theorem getD_map_lt {β γ : Type} (f : β → γ) (l : List β) (i : Nat)
    (hi : i < l.length) (d : γ) : (l.map f).getD i d = f (l[i]) := by
  rw [List.getD_eq_getElem?_getD, List.getElem?_map, List.getElem?_eq_getElem hi]
  rfl

/-- Defaulted indexing inside the range is plain indexing. -/
theorem getD_lt {β : Type} (l : List β) (i : Nat) (hi : i < l.length) (d : β) :
    l.getD i d = l[i] := by
  rw [List.getD_eq_getElem?_getD, List.getElem?_eq_getElem hi]
  rfl

/-- First axis array of a positive-rank axes tuple. -/
theorem axesOf_headD (r' : Nat) (ls : List (List Nat)) :
    (axesOf (r' + 1) ls).headD [] = ls.map (fun idx => idx.getD 0 0) := by
  simp [axesOf, List.range_succ_eq_map]

/-- Gathering the per-axis views of a list of equal-rank multi-indices
returns that list: numpy advanced indexing with the (masked) nonzero axes
selects exactly the corresponding multi-indexed entries. -/
theorem gatherIdx_axesOf :
    ∀ (kept : List (List Nat)) (r : Nat), 1 ≤ r → (∀ x ∈ kept, x.length = r) →
      gatherIdx (axesOf r kept) = kept := by
  intro kept r hr hlen
  obtain ⟨r', rfl⟩ : ∃ r', r = r' + 1 := ⟨r - 1, by omega⟩
  have hm : ((axesOf (r' + 1) kept).headD []).length = kept.length := by
    rw [axesOf_headD, List.length_map]
  simp only [gatherIdx, hm]
  have hcong : ∀ i ∈ List.range kept.length,
      (axesOf (r' + 1) kept).map (fun ax => ax.getD i 0) = kept.getD i [] := by
    intro i hi
    have hi' : i < kept.length := List.mem_range.mp hi
    have hklen : (kept[i]).length = r' + 1 := hlen (kept[i]) (kept.getElem_mem hi')
    simp only [axesOf, List.map_map]
    have hfun : ∀ j ∈ List.range (r' + 1),
        ((fun ax => ax.getD i 0) ∘ fun j => kept.map (fun idx => idx.getD j 0)) j
          = (kept[i]).getD j 0 := by
      intro j _
      simp only [Function.comp]
      exact getD_map_lt (fun idx => idx.getD j 0) kept i hi' 0
    rw [List.map_congr_left hfun, getD_lt kept i hi' []]
    calc (List.range (r' + 1)).map (fun j => (kept[i]).getD j 0)
        = (List.range (kept[i]).length).map (fun j => (kept[i]).getD j 0) := by rw [hklen]
      _ = kept[i] := range_map_getD (kept[i]) 0
  rw [List.map_congr_left hcong]
  exact range_map_getD kept []

/-- Masking every axis array is the axes view of the masked index list. -/
theorem axesOf_maskFilter (r : Nat) (mask : List Bool) (ls : List (List Nat)) :
    (axesOf r ls).map (fun ind => maskFilter mask ind) = axesOf r (maskFilter mask ls) := by
  simp only [axesOf, List.map_map]
  apply List.map_congr_left
  intro j _
  simp only [Function.comp]
  exact maskFilter_map (fun idx => idx.getD j 0) ls mask

/-- The selector mask computed by _init_sparse: the selector applied to the
per-axis nonzero index arrays of the function output. -/
def sparseMask (f : SymFunc) (selector : List (List Nat) → List Bool) : List Bool :=
  selector (axesOf f.outShape.length (nonzeroIdx f.outShape f.outFlat))

/-- The masked per-axis index arrays stored in the sparsity table. -/
def sparseKeptAxes (f : SymFunc) (selector : List (List Nat) → List Bool) :
    List (List Nat) :=
  (axesOf f.outShape.length (nonzeroIdx f.outShape f.outFlat)).map
    (fun ind => maskFilter (sparseMask f selector) ind)

/-- The rank-1 value array gathered from the masked axes. -/
def sparseFval (f : SymFunc) (selector : List (List Nat) → List Bool) : List Expr :=
  (gatherIdx (sparseKeptAxes f selector)).map (entryAt f.outShape f.outFlat)

/-- The new function object registered by _init_sparse. -/
def sparseFobj (f : SymFunc) (fname : String) (selector : List (List Nat) → List Bool) :
    SymFunc :=
  ⟨[(sparseFval f selector).length], sparseFval f selector, f.args, fname ++ "_val"⟩

/-- The spec-side description of the kept entries: the structurally-nonzero
multi-indices of the output, filtered by the selector mask, in row-major
order. -/
def sparseKept (f : SymFunc) (selector : List (List Nat) → List Bool) :
    List (List Nat) :=
  maskFilter (sparseMask f selector) (nonzeroIdx f.outShape f.outFlat)

/-- Evaluation of one sparse-initialization step once the base function is
found. -/
theorem initSparseStep_eval (m : SModel) (fname : String)
    (selector : List (List Nat) → List Bool) (f : SymFunc)
    (hf : m.functions fname = some f) :
    initSparseStep m (Sum.inr (fname, selector)) = some
      { functions := fun q => if q = fname ++ "_val" then
            some (sparseFobj f fname selector)
          else m.functions q,
        sparseInds := fun q => if q = fname then
            some (sparseKeptAxes f selector)
          else m.sparseInds q } := by
  simp only [initSparseStep]
  rw [hf]
  rfl

/-- For a positive-rank output, the stored axes are the per-axis view of
the kept multi-index list and the gathered values are its entries. -/
theorem sparseKeptAxes_eq (f : SymFunc) (selector : List (List Nat) → List Bool) :
    sparseKeptAxes f selector = axesOf f.outShape.length (sparseKept f selector) :=
  axesOf_maskFilter f.outShape.length (sparseMask f selector)
    (nonzeroIdx f.outShape f.outFlat)

/-- The gathered rank-1 values are exactly the kept entries of the output. -/
theorem sparseFval_eq (f : SymFunc) (selector : List (List Nat) → List Bool)
    (hrank : f.outShape ≠ []) :
    sparseFval f selector = (sparseKept f selector).map (entryAt f.outShape f.outFlat) := by
  have hr1 : 1 ≤ f.outShape.length := List.length_pos.mpr hrank
  have hkeptlen : ∀ x ∈ sparseKept f selector, x.length = f.outShape.length := by
    intro x hx
    have hxnz := maskFilter_subset _ _ x hx
    have hxnd := (List.mem_filter.mp hxnz).1
    exact ndindex_length f.outShape x hxnd
  rw [sparseFval, sparseKeptAxes_eq, gatherIdx_axesOf (sparseKept f selector)
    f.outShape.length hr1 hkeptlen]

/-- C9: for a sparsity declaration over a positive-rank function with a
well-formed flat output and a selector mask of matching length, the sparse
initialization step registers a new function named with the _val suffix,
whose output is the rank-1 array of the base output's structurally-nonzero
entries kept by the selector, with the base function's argument list, and
records the per-axis index tuples of the kept entries in the sparsity table
keyed by the base name; other entries of both tables are untouched; a bare
function name means the default all-true selector, which keeps every
nonzero entry. -/
theorem c9_init_sparse (m : SModel) (fname : String)
    (selector : List (List Nat) → List Bool) (f : SymFunc)
    (hf : m.functions fname = some f)
    (hflat : f.outFlat.length = listProd f.outShape)
    (hrank : f.outShape ≠ [])
    (hmask : (sparseMask f selector).length = (nonzeroIdx f.outShape f.outFlat).length) :
    ((initSparseStep m (Sum.inr (fname, selector))).bind
        (fun m' => m'.functions (fname ++ "_val")))
      = some ⟨[(sparseKept f selector).length],
          (sparseKept f selector).map (entryAt f.outShape f.outFlat),
          f.args, fname ++ "_val"⟩
    ∧ ((initSparseStep m (Sum.inr (fname, selector))).bind
        (fun m' => m'.sparseInds fname))
      = some (axesOf f.outShape.length (sparseKept f selector))
    ∧ (∀ q, q ≠ fname ++ "_val" →
        ((initSparseStep m (Sum.inr (fname, selector))).bind (fun m' => m'.functions q))
          = m.functions q)
    ∧ (∀ q, q ≠ fname →
        ((initSparseStep m (Sum.inr (fname, selector))).bind (fun m' => m'.sparseInds q))
          = m.sparseInds q)
    ∧ initSparseStep m (Sum.inl fname) = initSparseStep m (Sum.inr (fname, defaultSelector))
    ∧ sparseKept f defaultSelector = nonzeroIdx f.outShape f.outFlat := by
  have heval := initSparseStep_eval m fname selector f hf
  have hfval := sparseFval_eq f selector hrank
  have hdefmask : sparseMask f defaultSelector
      = List.replicate (nonzeroIdx f.outShape f.outFlat).length true := by
    have hr1 : 1 ≤ f.outShape.length := List.length_pos.mpr hrank
    obtain ⟨r', hr'⟩ : ∃ r', f.outShape.length = r' + 1 := ⟨f.outShape.length - 1, by omega⟩
    rw [sparseMask, defaultSelector, hr', axesOf_headD, List.length_map]
  refine ⟨?_, ?_, ?_, ?_, rfl, ?_⟩
  · rw [heval, Option.some_bind]
    show (if fname ++ "_val" = fname ++ "_val" then some (sparseFobj f fname selector)
        else m.functions (fname ++ "_val")) = _
    rw [if_pos rfl, sparseFobj, hfval]
    simp [List.length_map]
  · rw [heval, Option.some_bind]
    show (if fname = fname then some (sparseKeptAxes f selector)
        else m.sparseInds fname) = _
    rw [if_pos rfl, sparseKeptAxes_eq]
  · intro q hq
    rw [heval, Option.some_bind]
    show (if q = fname ++ "_val" then some (sparseFobj f fname selector)
        else m.functions q) = m.functions q
    rw [if_neg hq]
  · intro q hq
    rw [heval, Option.some_bind]
    show (if q = fname then some (sparseKeptAxes f selector)
        else m.sparseInds q) = m.sparseInds q
    rw [if_neg hq]
  · rw [sparseKept, hdefmask]
    exact maskFilter_replicate_true _

/-- Concrete function for the C9 witness: output [0, a] of shape two. -/
def c9Fun : SymFunc := ⟨[2], [Expr.const 0, Expr.sym "a"], ["x"], "f"⟩

/-- Concrete model for the C9 witness. -/
def c9Model : SModel :=
  { functions := fun q => if q = "f" then some c9Fun else none,
    sparseInds := fun _ => none }

/-- Witness for C9 at the concrete model with the default selector. -/
theorem c9_init_sparse_witness :
    c9Model.functions "f" = some c9Fun
    ∧ c9Fun.outFlat.length = listProd c9Fun.outShape
    ∧ c9Fun.outShape ≠ []
    ∧ (sparseMask c9Fun defaultSelector).length
        = (nonzeroIdx c9Fun.outShape c9Fun.outFlat).length
    ∧ ((initSparseStep c9Model (Sum.inr ("f", defaultSelector))).bind
        (fun m' => m'.functions ("f" ++ "_val")))
      = some ⟨[(sparseKept c9Fun defaultSelector).length],
          (sparseKept c9Fun defaultSelector).map (entryAt c9Fun.outShape c9Fun.outFlat),
          c9Fun.args, "f" ++ "_val"⟩ :=
  ⟨rfl, rfl, by decide, rfl,
   (c9_init_sparse c9Model "f" defaultSelector c9Fun rfl rfl (by decide) rfl).1⟩

/-- Embedding of filterout_none over a mapping (src/sym2num/model.py, lines
267-270): entries whose value is None (the inner none) are removed. -/
def filteroutNoneF {V : Type} (d : String → Option (Option V)) :
    String → Option (Option V) :=
  fun k =>
    match d k with
    | some (some v) => some (some v)
    | _ => none

/-- Python dict built from a list of key-value pairs: a later entry for the
same key overrides an earlier one. -/
def dictOfPairs {V : Type} : List (String × V) → String → Option V
  | [], _ => none
  | (k, v) :: rest, q =>
      match dictOfPairs rest q with
      | some r => some r
      | none => if k = q then some v else none

/-- Embedding of filterout_none over an iterable of pairs: pairs whose
value is None are dropped before the dict is built. -/
def filteroutNoneL {V : Type} (l : List (String × Option V)) :
    String → Option (Option V) :=
  dictOfPairs (l.filter (fun p => p.2.isSome))

/-- Instance state of the parametrized wrapper: the generated class's
variable specs (name and total size) and the stored parameter dict. -/
structure PMState (V : Type) : Type where
  varSpecs : List (String × Nat)
  params : String → Option V

/-- The numpy array conversion applied to stored parameter values; the
numeric library is an external collaborator, so the value domain is
abstract and conversion is the identity on it. -/
def np_asarray {V : Type} (v : V) : V := v

/-- Embedding of ParametrizedModel.__init__ (src/sym2num/model.py, lines
202-209): the given parameters are copied through np.asarray, and every
variable whose declared spec has zero total size and which was not supplied
gets an empty-array default. -/
def pmInit {V : Type} (emptyArr : V) (varSpecs : List (String × Nat))
    (params : String → Option V) : PMState V :=
  { varSpecs := varSpecs,
    params := fun k =>
      match params k with
      | some v => some (np_asarray v)
      | none =>
          match List.lookup k varSpecs with
          | some sz => if sz = 0 then some emptyArr else none
          | none => none }

/-- Embedding of ParametrizedModel.parametrize (src/sym2num/model.py, lines
211-216): a copy of the stored parameters is overlaid first with the
positional dict then with the keyword arguments, and a new instance is
constructed by __init__ on the same variable specs.  The pair returns the
new instance together with the receiver's state after the call; the source
never writes to the receiver, so that state is the input state. -/
def parametrize {V : Type} (emptyArr : V) (st : PMState V)
    (ps kws : String → Option V) : PMState V × PMState V :=
  (pmInit emptyArr st.varSpecs
    (fun k =>
      match kws k with
      | some v => some v
      | none =>
          match ps k with
          | some v => some v
          | none => st.params k),
   st)

/-- Embedding of ParametrizedModel.call_args (src/sym2num/model.py, lines
218-223): the stored parameters restricted to the function's declared
argument names, updated with the None-filtered keyword arguments, then
updated with the None-filtered positional arguments zipped against the
signature.  The returned dict maps each argument name to the value passed
through f(**call_args); a name absent from the dict is omitted from the
call. -/
def callArgs {V : Type} (st : PMState V) (sig : List String)
    (args : List (Option V)) (kwargs : String → Option (Option V)) :
    String → Option (Option V) :=
  fun k =>
    match filteroutNoneL (sig.zip args) k with
    | some v => some v
    | none =>
        match filteroutNoneF kwargs k with
        | some v => some v
        | none => if k ∈ sig then (st.params k).map some else none

/-- The state-threaded view of call_args: the source builds a fresh dict
and performs no write to the receiver. -/
def callArgsM {V : Type} (st : PMState V) (sig : List String)
    (args : List (Option V)) (kwargs : String → Option (Option V)) :
    (String → Option (Option V)) × PMState V :=
  (callArgs st sig args kwargs, st)

/-- Resolution following the words of C6 only, to be compared with the
source's callArgs: an explicit call-time value (positional first, then
named) takes precedence over the stored instance parameter, and an
argument whose call-time value is None is dropped rather than passed. -/
def c6ClaimResolve {V : Type} (st : PMState V) (sig : List String)
    (args : List (Option V)) (kwargs : String → Option (Option V)) :
    String → Option (Option V) :=
  fun k =>
    match dictOfPairs (sig.zip args) k with
    | some none => none
    | some (some w) => some (some w)
    | none =>
        match kwargs k with
        | some none => none
        | some (some w) => some (some w)
        | none => if k ∈ sig then (st.params k).map some else none

/-- Lookup distributes over list append. -/
theorem lookup_append {V : Type} :
    ∀ (l1 l2 : List (String × V)) (q : String),
      List.lookup q (l1 ++ l2)
        = match List.lookup q l1 with
          | some v => some v
          | none => List.lookup q l2 := by
  intro l1
  induction l1 with
  | nil => intro l2 q; rfl
  | cons p rest ih =>
      intro l2 q
      obtain ⟨k, v⟩ := p
      simp only [List.cons_append, List.lookup]
      cases hqk : (q == k) with
      | true => rfl
      | false => exact ih l2 q

/-- A Python dict of pairs is last-occurrence lookup. -/
theorem dictOfPairs_eq_lookup_reverse {V : Type} :
    ∀ (l : List (String × V)) (q : String),
      dictOfPairs l q = List.lookup q l.reverse := by
  intro l
  induction l with
  | nil => intro q; rfl
  | cons p rest ih =>
      intro q
      obtain ⟨k, v⟩ := p
      simp only [dictOfPairs, List.reverse_cons]
      rw [lookup_append, ← ih q]
      cases dictOfPairs rest q with
      | some r => rfl
      | none =>
          simp only [List.lookup]
          by_cases hk : k = q
          · subst hk
            simp
          · rw [if_neg hk]
            have : (q == k) = false := by
              simp [beq_iff_eq]
              exact fun h => hk h.symm
            rw [this]

/-- C6 (amended): call_args resolves each name by precedence non-None
positional value (last occurrence wins) over non-None named value over
stored instance parameter (for declared argument names) over omitted; a
None call-time value is discarded rather than passed, so the resolution
falls back to the stored parameter when one exists, and the argument is
dropped from the call only when neither a non-None call-time value nor a
stored parameter is available. -/
theorem c6_call_args_resolution {V : Type} :
    ∀ (st : PMState V) (sig : List String) (args : List (Option V))
      (kwargs : String → Option (Option V)) (k : String),
      callArgs st sig args kwargs k
        = match List.lookup k ((sig.zip args).filter (fun p => p.2.isSome)).reverse with
          | some v => some v
          | none =>
              match kwargs k with
              | some (some v) => some (some v)
              | _ => if k ∈ sig then (st.params k).map some else none := by
  intro st sig args kwargs k
  simp only [callArgs, filteroutNoneL, filteroutNoneF]
  rw [dictOfPairs_eq_lookup_reverse]
  cases List.lookup k ((sig.zip args).filter (fun p => p.2.isSome)).reverse with
  | some v => rfl
  | none =>
      cases kwargs k with
      | none => rfl
      | some v =>
          cases v with
          | none => rfl
          | some w => rfl

/-- Concrete wrapper state for the C6 counterexample: stored parameter a
equal to 1. -/
def c6State : PMState Nat :=
  { varSpecs := [], params := fun k => if k = "a" then some 1 else none }

/-- Concrete keyword arguments for the C6 counterexample: a explicitly
passed as None. -/
def c6Kwargs : String → Option (Option Nat) :=
  fun k => if k = "a" then some none else none

/-- Counterexample for C6 as stated: with stored parameter a equal to 1 and
the explicit call-time value None for a, the source still passes a with the
stored value 1, whereas the claim's resolution (None is dropped rather than
passed) would omit the argument entirely. -/
theorem c6_counterexample :
    callArgs c6State ["a"] [] c6Kwargs "a" = some (some 1)
    ∧ c6ClaimResolve c6State ["a"] [] c6Kwargs "a" = none
    ∧ c6Kwargs "a" = some none
    ∧ c6State.params "a" = some 1
    ∧ (some (some 1) : Option (Option Nat)) ≠ none := by
  refine ⟨rfl, rfl, rfl, rfl, by simp⟩

/-- C7: parametrize returns a new wrapper instance whose stored parameters
are the original ones overlaid with the overrides (keyword overrides over
positional-dict overrides over originals), and the original instance's
state is returned unchanged; likewise call_args reads the receiver without
writing it, and an explicit keyword value overrides the stored parameter
for that call only, the stored parameter itself staying intact.  The
well-formedness hypothesis states that zero-size variables already carry
their empty default in the original instance, as __init__ guarantees. -/
theorem c7_parametrize_frame {V : Type} (emptyArr : V) (st : PMState V)
    (ps kws : String → Option V)
    (hwf : ∀ k s, List.lookup k st.varSpecs = some s → s = 0 → st.params k ≠ none) :
    (∀ k, (parametrize emptyArr st ps kws).1.params k
        = match kws k with
          | some v => some v
          | none =>
              match ps k with
              | some v => some v
              | none => st.params k)
    ∧ (parametrize emptyArr st ps kws).2 = st
    ∧ (∀ sig args kwargs, (callArgsM st sig args kwargs).2 = st)
    ∧ (∀ (sig : List String) (kwargs : String → Option (Option V)) (v : V) (k : String),
        k ∈ sig → kwargs k = some (some v) →
        (callArgsM st sig [] kwargs).1 k = some (some v)
        ∧ (callArgsM st sig [] kwargs).2.params k = st.params k) := by
  refine ⟨?_, rfl, fun sig args kwargs => rfl, ?_⟩
  · intro k
    show (pmInit emptyArr st.varSpecs _).params k = _
    simp only [pmInit, np_asarray]
    cases hk : kws k with
    | some v => rfl
    | none =>
        cases hp : ps k with
        | some v => rfl
        | none =>
            cases hst : st.params k with
            | some v => rfl
            | none =>
                cases hl : List.lookup k st.varSpecs with
                | none => rfl
                | some sz =>
                    by_cases hsz : sz = 0
                    · exact absurd hst (hwf k sz hl hsz)
                    · simp [hsz]
  · intro sig kwargs v k _ hkw
    constructor
    · show callArgs st sig [] kwargs k = some (some v)
      simp only [callArgs, filteroutNoneL, filteroutNoneF]
      rw [List.zip_nil_right]
      simp only [List.filter_nil, dictOfPairs]
      rw [hkw]
    · rfl

/-- Concrete wrapper state for the C7 witness: one zero-size variable z
with its empty default, and stored parameter a equal to 1. -/
def c7State : PMState Nat :=
  { varSpecs := [("z", 0)],
    params := fun k => if k = "a" then some 1 else if k = "z" then some 0 else none }

/-- Witness for C7 at concrete overrides and a concrete call. -/
theorem c7_parametrize_frame_witness :
    (∀ k s, List.lookup k c7State.varSpecs = some s → s = 0 → c7State.params k ≠ none)
    ∧ (parametrize (0 : Nat) c7State (fun _ => none)
        (fun k => if k = "a" then some 5 else none)).1.params "a" = some 5
    ∧ (parametrize (0 : Nat) c7State (fun _ => none)
        (fun k => if k = "a" then some 5 else none)).2 = c7State
    ∧ (callArgsM c7State ["a"] []
        (fun k => if k = "a" then some (some 5) else none)).1 "a" = some (some 5)
    ∧ c7State.params "a" = some 1 := by
  have hwf : ∀ k s, List.lookup k c7State.varSpecs = some s → s = 0 →
      c7State.params k ≠ none := by
    intro k s hl _
    simp only [c7State, List.lookup] at hl ⊢
    by_cases hk : k = "z"
    · subst hk
      simp
    · have : (k == "z") = false := by
        simp [beq_iff_eq, hk]
      rw [this] at hl
      cases hl
  have hmain := c7_parametrize_frame (0 : Nat) c7State (fun _ => none)
    (fun k => if k = "a" then some 5 else none) hwf
  refine ⟨hwf, ?_, hmain.2.1, ?_, rfl⟩
  · have h1 := hmain.1 "a"
    simpa using h1
  · have h4 := (hmain.2.2.2 ["a"] (fun k => if k = "a" then some (some 5) else none) 5 "a"
      (by decide) (by simp)).1
    exact h4
